import Mathlib

/-!
Verification of the plain-text extraction core of the `sawzall` library
(`src/html_to_plain.rs`).  The HTML tree handed over by the parser is
modelled as a rose tree of node values; `html_to_plain` walks the
pre/post-order edge stream, classifies edges into content items and folds
the item stream into the output string, merging consecutive line-break
markers by taking their maximum and dropping boundary break groups.
-/

namespace Sawzall

/-- Node values of the parsed HTML tree (scraper's `Node` enum, restricted to
the constructors the extractor distinguishes; `other` stands for doctypes,
fragments and processing instructions).  Elements carry their attribute list
and comments their body so that we can state that the extractor ignores
both. -/
inductive DomNode where
  | document
  | element (name : String) (attrs : List (String × String))
  | text (content : String)
  | comment (content : String)
  | other

/-- A parsed HTML tree: a node value together with its children
(`ego_tree`'s tree shape, read-only view). -/
inductive HtmlTree where
  | node (value : DomNode) (children : List HtmlTree)

/-- A traversal event of `ego_tree::iter::Traverse`: `enter` is `Edge::Open`
(pre-order visit), `exit` is `Edge::Close` (post-order close). -/
inductive Edge where
  | enter (value : DomNode)
  | exit (value : DomNode)

/-- The `Item` enum of `html_to_plain.rs`: a literal text run or a
line-break marker carrying how many newlines it represents. -/
inductive Item where
  | Text (s : String)
  | Newlines (n : Nat)
deriving DecidableEq

/-- Rust's `char::is_whitespace` (the Unicode `White_Space` property),
used by `str::trim`. -/
def isRustWhitespace (c : Char) : Bool :=
  c = ' ' || c = '\t' || c = '\n' || c = '\u000B' || c = '\u000C' || c = '\r'
    || c = '\u0085' || c = '\u00A0' || c = '\u1680'
    || c = '\u2000' || c = '\u2001' || c = '\u2002' || c = '\u2003'
    || c = '\u2004' || c = '\u2005' || c = '\u2006' || c = '\u2007'
    || c = '\u2008' || c = '\u2009' || c = '\u200A' || c = '\u2028'
    || c = '\u2029' || c = '\u202F' || c = '\u205F' || c = '\u3000'

/-- Rust's `str::trim` on the character sequence: strip whitespace from both
ends. -/
def trimChars (l : List Char) : List Char :=
  ((l.dropWhile isRustWhitespace).reverse.dropWhile isRustWhitespace).reverse

/-- A string is whitespace-only (or empty): every character is whitespace.
This is the predicate the spec uses to describe the dropped text nodes. -/
def wsOnly (s : String) : Bool :=
  s.data.all isRustWhitespace

/-- The `BLOCK_LEVEL_ELEMENTS` constant of `html_to_plain.rs`: the fixed
MDN block-level element list. -/
def BLOCK_LEVEL_ELEMENTS : List String :=
  ["address", "article", "aside", "blockquote", "dd", "details", "dialog",
   "div", "dl", "dt", "fieldset", "figcaption", "figure", "footer", "form",
   "h1", "h2", "h3", "h4", "h5", "h6", "header", "hgroup", "hr", "li",
   "main", "nav", "ol", "p", "pre", "section", "table", "ul"]

/-- The `is_block_element` function: membership in the block-level set
(the Rust code queries a `HashSet` built once from the array; containment
in the set is containment in the array). -/
def is_block_element (name : String) : Bool :=
  BLOCK_LEVEL_ELEMENTS.contains name

/-- The `filter_map` closure of `html_to_plain`: classify one traversal
edge into an optional content item.  Text nodes whose trimmed content is
empty are dropped; `br` yields one newline, `p` two (on enter and exit),
any other block-level element one; everything else yields nothing. -/
def classify : Edge → Option Item
  | .enter n =>
    match n with
    | .text s => if trimChars s.data ≠ [] then some (.Text s) else none
    | .element name _ =>
      if name = "br" then some (.Newlines 1)
      else if name = "p" then some (.Newlines 2)
      else if is_block_element name then some (.Newlines 1)
      else none
    | _ => none
  | .exit n =>
    match n with
    | .element name _ =>
      if name = "p" then some (.Newlines 2)
      else if is_block_element name then some (.Newlines 1)
      else none
    | _ => none

mutual

/-- Depth-first document-order traversal of a subtree, emitting the
`Edge::Open`/`Edge::Close` stream with the root as the outermost pair
(scraper's `ElementRef::traverse`). -/
def traverseT : HtmlTree → List Edge
  | .node v cs => Edge.enter v :: traverseL cs ++ [Edge.exit v]

/-- Traversal of a forest of sibling subtrees, in order. -/
def traverseL : List HtmlTree → List Edge
  | [] => []
  | t :: ts => traverseT t ++ traverseL ts

end

/-- The classified item stream of a subtree (the content of the
`item_iter` iterator in `html_to_plain`). -/
def itemsOf (t : HtmlTree) : List Item :=
  (traverseT t).filterMap classify

/-- The classified item stream of a forest. -/
def itemsOfL (ts : List HtmlTree) : List Item :=
  (traverseL ts).filterMap classify

/-- Whether an item is a `Newlines` marker (the pattern the merge loop
peeks for). -/
def isBreakItem : Item → Bool
  | .Newlines _ => true
  | .Text _ => false

/-- The inner `while let Some(Item::Newlines(next_count)) = peek` loop:
starting from `count`, take the maximum with every immediately following
`Newlines` item. -/
def mergeMax : Nat → List Item → Nat
  | n, .Newlines k :: rest => mergeMax (max n k) rest
  | n, _ => n

/-- `"\n".repeat n`. -/
def nlRepeat (n : Nat) : String :=
  String.mk (List.replicate n '\n')

/-- The `while let Some(item) = item_iter.next()` loop of `html_to_plain`:
text runs are pushed verbatim; a `Newlines` item consumes all directly
following `Newlines` items (advancing past them, i.e. `dropWhile`), and
pushes `max` newlines unless the output is still empty or no item
remains. -/
def fold : List Item → String → String
  | [], out => out
  | .Text s :: rest, out => fold rest (out ++ s)
  | .Newlines n :: rest, out =>
    fold (rest.dropWhile isBreakItem)
      (if out = "" ∨ rest.dropWhile isBreakItem = [] then out
       else out ++ nlRepeat (mergeMax n rest))
termination_by l _ => l.length
decreasing_by
all_goals simp only [List.length_cons]
· exact Nat.lt_succ_self _
· exact Nat.lt_succ_of_le (List.dropWhile_sublist isBreakItem).length_le

/-- `html_to_plain`: classify the traversal of the subtree and fold the
item stream into the output string. -/
def html_to_plain (t : HtmlTree) : String :=
  fold (itemsOf t) ""

/-- Fuelled variant of the fold loop: each loop iteration consumes one unit
of fuel and running out of fuel is an explicit failure value.  Used to
state that the loop always terminates within `length` iterations. -/
def foldFuel : Nat → List Item → String → Option String
  | _, [], out => some out
  | 0, _ :: _, _ => none
  | fuel + 1, .Text s :: rest, out => foldFuel fuel rest (out ++ s)
  | fuel + 1, .Newlines n :: rest, out =>
    foldFuel fuel (rest.dropWhile isBreakItem)
      (if out = "" ∨ rest.dropWhile isBreakItem = [] then out
       else out ++ nlRepeat (mergeMax n rest))

/-- `html_to_plain` with an explicit failure path: run the fold loop with
as much fuel as there are items. -/
def html_to_plain_checked (t : HtmlTree) : Option String :=
  foldFuel (itemsOf t).length (itemsOf t) ""

/-- Classification table exactly as the spec words it: non-whitespace-only
text on enter becomes a text run, whitespace-only or empty text is ignored,
`br` enters as a 1-break, `p` enters and exits as a 2-break, any other
block-level element enters and exits as a 1-break, and every other event is
ignored. -/
def classify_spec : Edge → Option Item
  | .enter (.text s) => if wsOnly s then none else some (.Text s)
  | .enter (.element name _) =>
    if name = "br" then some (.Newlines 1)
    else if name = "p" then some (.Newlines 2)
    else if is_block_element name then some (.Newlines 1)
    else none
  | .exit (.element name _) =>
    if name = "p" then some (.Newlines 2)
    else if is_block_element name then some (.Newlines 1)
    else none
  | _ => none

/-- A group of the spec's folding rule: either one text run, appended
verbatim, or one merged line-break group carrying the maximum count. -/
inductive Chunk where
  | run (s : String)
  | breaks (n : Nat)
deriving DecidableEq

/-- The newline count an item carries (zero for a text run). -/
def breakCount : Item → Nat
  | .Text _ => 0
  | .Newlines n => n

/-- Grouping per the spec: each `Break(n)` absorbs all immediately
following `Break` items (no intervening `TextRun`), and the group's count
is the maximum of the merged counts. -/
def toChunks : List Item → List Chunk
  | [] => []
  | .Text s :: rest => .run s :: toChunks rest
  | .Newlines n :: rest =>
    .breaks (((rest.takeWhile isBreakItem).map breakCount).foldl max n)
      :: toChunks (rest.dropWhile isBreakItem)
termination_by l => l.length
decreasing_by
all_goals simp only [List.length_cons]
· exact Nat.lt_succ_self _
· exact Nat.lt_succ_of_le (List.dropWhile_sublist isBreakItem).length_le

/-- Rendering per the spec: text groups are appended verbatim; a merged
break group emits its count of newlines unless nothing has been appended
yet or no group remains after it, in which case it is dropped. -/
def specFold : List Chunk → String → String
  | [], out => out
  | .run s :: rest, out => specFold rest (out ++ s)
  | .breaks n :: rest, out =>
    if out = "" ∨ rest = [] then specFold rest out
    else specFold rest (out ++ nlRepeat n)

/-- Erase everything from a node value except its kind, its tag name and
its text content (attributes and comment bodies are wiped). -/
def stripNode : DomNode → DomNode
  | .document => .document
  | .element name _ => .element name []
  | .text s => .text s
  | .comment _ => .comment ""
  | .other => .other

mutual

/-- Erase all data of a subtree except structure, tag names and text
content. -/
def stripT : HtmlTree → HtmlTree
  | .node v cs => .node (stripNode v) (stripL cs)

/-- Forest version of `stripT`. -/
def stripL : List HtmlTree → List HtmlTree
  | [] => []
  | t :: ts => stripT t :: stripL ts

end

/-- Whether a node value is a text node with some non-whitespace
content. -/
def nodeVisibleText : DomNode → Bool
  | .text s => !wsOnly s
  | _ => false

mutual

/-- Whether a subtree contains a text node with non-whitespace content. -/
def hasVisibleText : HtmlTree → Bool
  | .node v cs => nodeVisibleText v || hasVisibleTextL cs

/-- Forest version of `hasVisibleText`. -/
def hasVisibleTextL : List HtmlTree → Bool
  | [] => false
  | t :: ts => hasVisibleText t || hasVisibleTextL ts

end

/-- Whether a node value is free of newline characters (trivially true for
non-text nodes). -/
def nodeNlFree : DomNode → Bool
  | .text s => !s.data.contains '\n'
  | _ => true

mutual

/-- Whether no text node of the subtree contains a newline character. -/
def textsNlFree : HtmlTree → Bool
  | .node v cs => nodeNlFree v && textsNlFreeL cs

/-- Forest version of `textsNlFree`. -/
def textsNlFreeL : List HtmlTree → Bool
  | [] => true
  | t :: ts => textsNlFree t && textsNlFreeL ts

end

/-- Character-wise lower casing of a string (used to express that a string
differs from a tag name only in letter case). -/
def lowerStr (s : String) : String :=
  String.mk (s.data.map Char.toLower)

/-- The shape every item produced by `classify` has when the tree's text
nodes are newline-free: text runs are non-empty and newline-free, and
break markers carry a count of at most 2. -/
def goodItem : Item → Prop
  | .Text s => s ≠ "" ∧ s.data.contains '\n' = false
  | .Newlines n => n ≤ 2

/-- A character list has no run of three (or more) consecutive newline
characters. -/
def NoTripleL (l : List Char) : Prop :=
  ∀ i : Nat, ¬(l[i]? = some '\n' ∧ l[i + 1]? = some '\n' ∧ l[i + 2]? = some '\n')

/-- A string never shows three consecutive newline characters. -/
def noTripleNewline (s : String) : Prop :=
  NoTripleL s.data

/-- A `<p>` element wrapping one text node, as produced by the parser for
`<p>X</p>`. -/
def pNode (s : String) : HtmlTree :=
  .node (.element "p" []) [.node (.text s) []]

/-- The root element the fragment parser wraps sibling fragments in. -/
def htmlFrag (cs : List HtmlTree) : HtmlTree :=
  .node (.element "html" []) cs

theorem str_eq_empty_iff (s : String) : s = "" ↔ s.data = [] := by
  rw [String.ext_iff]

theorem trimChars_eq_nil_iff (l : List Char) :
    trimChars l = [] ↔ l.all isRustWhitespace = true := by
  unfold trimChars
  rw [List.reverse_eq_nil_iff, List.dropWhile_eq_nil_iff, List.all_eq_true]
  constructor
  · intro h x hx
    by_cases hmem : x ∈ l.dropWhile isRustWhitespace
    · exact h x (List.mem_reverse.mpr hmem)
    · have hx' : x ∈ l.takeWhile isRustWhitespace ++ l.dropWhile isRustWhitespace := by
        rw [List.takeWhile_append_dropWhile]
        exact hx
      rcases List.mem_append.mp hx' with h1 | h2
      · exact List.mem_takeWhile_imp h1
      · exact absurd h2 hmem
  · intro h x hx
    exact h x ((List.dropWhile_sublist _).subset (List.mem_reverse.mp hx))

theorem wsOnly_of_eq_empty {s : String} (h : s = "") : wsOnly s = true := by
  subst h
  rfl

theorem ne_empty_of_not_wsOnly {s : String} (h : wsOnly s = false) : s ≠ "" := by
  intro hc
  rw [wsOnly_of_eq_empty hc] at h
  exact Bool.true_eq_false.mp h

theorem classify_eq_spec (e : Edge) : classify e = classify_spec e := by
  cases e with
  | enter v =>
    cases v with
    | text s =>
      show (if trimChars s.data ≠ [] then some (Item.Text s) else none)
          = if wsOnly s then none else some (Item.Text s)
      by_cases h : wsOnly s = true
      · have ht : trimChars s.data = [] := (trimChars_eq_nil_iff _).mpr h
        simp [h, ht]
      · have ht : trimChars s.data ≠ [] := fun hc =>
          h ((trimChars_eq_nil_iff _).mp hc)
        simp [h, ht]
    | document => rfl
    | element name attrs => rfl
    | comment s => rfl
    | other => rfl
  | exit v => cases v <;> rfl

/-- C2: the classification of every traversal event into an optional
content item is exactly the spec's table: non-whitespace-only text on
enter becomes a verbatim text run, whitespace-only or empty text is
dropped, `br` enters as `Break(1)`, `p` enters and exits as `Break(2)`,
any other block-level element enters and exits as `Break(1)`, and every
other event (inline elements, documents, comments, other node kinds, exit
of `br`) yields nothing. -/
theorem c2_classification_matches_spec :
    ∀ e : Edge, classify e = classify_spec e :=
  classify_eq_spec

theorem lowerStr_fixed_on_blocks :
    ∀ x ∈ BLOCK_LEVEL_ELEMENTS, lowerStr x = x := by
  decide

theorem is_block_element_iff_mem (s : String) :
    is_block_element s = true ↔ s ∈ BLOCK_LEVEL_ELEMENTS := by
  unfold is_block_element
  exact List.elem_iff

/-- C3: `is_block_element` accepts exactly the 33 listed tag names and is
case-sensitive: any string that differs from a member only in letter case
(its character-wise lower casing is the member, but it is not equal to it)
is rejected. -/
theorem c3_block_set_exact_and_case_sensitive :
    (∀ s : String, is_block_element s = true ↔
      s ∈ (["address", "article", "aside", "blockquote", "dd", "details",
            "dialog", "div", "dl", "dt", "fieldset", "figcaption", "figure",
            "footer", "form", "h1", "h2", "h3", "h4", "h5", "h6", "header",
            "hgroup", "hr", "li", "main", "nav", "ol", "p", "pre", "section",
            "table", "ul"] : List String)) ∧
    (∀ s m : String, m ∈ BLOCK_LEVEL_ELEMENTS → lowerStr s = m → s ≠ m →
      is_block_element s = false) := by
  constructor
  · intro s
    exact is_block_element_iff_mem s
  · intro s m hm hlow hne
    by_contra hcon
    have hs : s ∈ BLOCK_LEVEL_ELEMENTS :=
      (is_block_element_iff_mem s).mp (Bool.of_not_eq_false hcon)
    exact hne (by rw [← lowerStr_fixed_on_blocks s hs, hlow])

/-- Witness for C3 at the concrete input `"DIV"`, which differs from the
member `"div"` only in letter case and is rejected. -/
theorem c3_witness :
    ("div" ∈ BLOCK_LEVEL_ELEMENTS ∧ lowerStr "DIV" = "div" ∧ "DIV" ≠ "div")
      ∧ is_block_element "DIV" = false :=
  ⟨⟨by decide, by decide, by decide⟩,
    c3_block_set_exact_and_case_sensitive.2 "DIV" "div" (by decide) (by decide)
      (by decide)⟩

theorem foldFuel_eq_fold :
    ∀ (fuel : Nat) (l : List Item) (out : String), l.length ≤ fuel →
      foldFuel fuel l out = some (fold l out)
  | _, [], out, _ => by simp [foldFuel, fold]
  | 0, i :: rest, out, h => by simp at h
  | fuel + 1, .Text s :: rest, out, h => by
    simp only [foldFuel, fold]
    exact foldFuel_eq_fold fuel rest (out ++ s) (by simpa using h)
  | fuel + 1, .Newlines n :: rest, out, h => by
    simp only [foldFuel, fold]
    exact foldFuel_eq_fold fuel (rest.dropWhile isBreakItem) _
      (le_trans (List.dropWhile_sublist isBreakItem).length_le
        (by simpa using h))

/-- C7: extraction is total — for every tree the fuelled fold loop, whose
failure value marks a non-terminating or stuck run, returns the extracted
string; no failure value is ever produced. -/
theorem c7_extract_total (t : HtmlTree) :
    html_to_plain_checked t = some (html_to_plain t) :=
  foldFuel_eq_fold _ _ _ (Nat.le_refl _)

theorem mergeMax_eq_foldl : ∀ (n : Nat) (l : List Item),
    mergeMax n l = ((l.takeWhile isBreakItem).map breakCount).foldl max n
  | _, [] => rfl
  | n, .Text s :: rest => by
    simp [mergeMax, isBreakItem]
  | n, .Newlines k :: rest => by
    rw [mergeMax, mergeMax_eq_foldl (max n k) rest]
    rw [List.takeWhile_cons_of_pos (by rfl)]
    simp [breakCount]

theorem toChunks_nil_iff (l : List Item) : toChunks l = [] ↔ l = [] := by
  cases l with
  | nil => simp [toChunks]
  | cons i rest => cases i <;> simp [toChunks]

theorem fold_eq_specFold : ∀ (l : List Item) (out : String),
    fold l out = specFold (toChunks l) out
  | [], out => by simp [fold, toChunks, specFold]
  | .Text s :: rest, out => by
    simp only [fold, toChunks, specFold]
    exact fold_eq_specFold rest (out ++ s)
  | .Newlines n :: rest, out => by
    simp only [fold, toChunks, specFold]
    rw [← mergeMax_eq_foldl]
    by_cases h : out = "" ∨ rest.dropWhile isBreakItem = []
    · have h' : out = "" ∨ toChunks (rest.dropWhile isBreakItem) = [] := by
        rcases h with h | h
        · exact Or.inl h
        · exact Or.inr (by rw [h]; simp [toChunks])
      rw [if_pos h, if_pos h']
      exact fold_eq_specFold (rest.dropWhile isBreakItem) out
    · have h' : ¬(out = "" ∨ toChunks (rest.dropWhile isBreakItem) = []) := by
        intro hc
        apply h
        rcases hc with hc | hc
        · exact Or.inl hc
        · exact Or.inr ((toChunks_nil_iff _).mp hc)
      rw [if_neg h, if_neg h']
      exact fold_eq_specFold (rest.dropWhile isBreakItem)
        (out ++ nlRepeat (mergeMax n rest))
termination_by l _ => l.length
decreasing_by
all_goals simp only [List.length_cons]
· exact Nat.lt_succ_self _
· exact Nat.lt_succ_of_le (List.dropWhile_sublist isBreakItem).length_le
· exact Nat.lt_succ_of_le (List.dropWhile_sublist isBreakItem).length_le

/-- C1: the fold over the item sequence refines the spec's two-phase
description — first merge every maximal run of consecutive `Break` items
into one group carrying the maximum count, then render: text runs are
appended verbatim and each merged group emits its count of newlines unless
nothing has been appended yet or no item remains after the group. -/
theorem c1_fold_refines_spec :
    (∀ (l : List Item) (out : String), fold l out = specFold (toChunks l) out)
      ∧ ∀ t : HtmlTree, html_to_plain t = specFold (toChunks (itemsOf t)) "" :=
  ⟨fold_eq_specFold, fun t => fold_eq_specFold (itemsOf t) ""⟩

theorem itemsOfL_nil : itemsOfL [] = [] := rfl

theorem itemsOfL_cons (t : HtmlTree) (ts : List HtmlTree) :
    itemsOfL (t :: ts) = itemsOf t ++ itemsOfL ts := by
  simp [itemsOfL, itemsOf, traverseL, List.filterMap_append]

theorem itemsOf_node (v : DomNode) (cs : List HtmlTree) :
    itemsOf (.node v cs)
      = (classify (.enter v)).toList ++ (itemsOfL cs ++ (classify (.exit v)).toList) := by
  simp only [itemsOf, itemsOfL, traverseT, List.filterMap_cons, List.filterMap_append]
  cases classify (Edge.enter v) <;> cases classify (Edge.exit v) <;>
    simp [List.filterMap_cons]

theorem classify_stripNode_enter (v : DomNode) :
    classify (.enter (stripNode v)) = classify (.enter v) := by
  cases v <;> rfl

theorem classify_stripNode_exit (v : DomNode) :
    classify (.exit (stripNode v)) = classify (.exit v) := by
  cases v <;> rfl

mutual

theorem itemsOf_strip : ∀ t : HtmlTree, itemsOf (stripT t) = itemsOf t
  | .node v cs => by
    rw [stripT, itemsOf_node, itemsOf_node, classify_stripNode_enter,
      classify_stripNode_exit, itemsOfL_strip cs]

theorem itemsOfL_strip : ∀ ts : List HtmlTree, itemsOfL (stripL ts) = itemsOfL ts
  | [] => rfl
  | t :: ts => by
    rw [stripL, itemsOfL_cons, itemsOfL_cons, itemsOf_strip t, itemsOfL_strip ts]

end

/-- C8: extraction is deterministic and pure — the output depends only on
the subtree's structure, tag names and text content; two trees that agree
after erasing everything else (attributes, comment bodies) extract to the
same string, and in particular two runs on the same tree agree. -/
theorem c8_deterministic_pure :
    ∀ t1 t2 : HtmlTree, stripT t1 = stripT t2 →
      html_to_plain t1 = html_to_plain t2 := by
  intro t1 t2 h
  show fold (itemsOf t1) "" = fold (itemsOf t2) ""
  rw [← itemsOf_strip t1, h, itemsOf_strip t2]

/-- Witness for C8: two trees differing only in an attribute and a comment
body extract identically. -/
theorem c8_witness :
    stripT (.node (.element "div" [("id", "x")]) [.node (.comment "a") []])
        = stripT (.node (.element "div" []) [.node (.comment "b") []])
      ∧ html_to_plain (.node (.element "div" [("id", "x")]) [.node (.comment "a") []])
        = html_to_plain (.node (.element "div" []) [.node (.comment "b") []]) :=
  ⟨by simp [stripT, stripL, stripNode],
    c8_deterministic_pure _ _ (by simp [stripT, stripL, stripNode])⟩

theorem mergeMax_append_of_ne {l₂ : List Item} : ∀ (n : Nat) (l : List Item),
    l.dropWhile isBreakItem ≠ [] → mergeMax n (l ++ l₂) = mergeMax n l
  | _, [], h => absurd rfl h
  | n, .Text s :: rest, h => by
    simp [mergeMax]
  | n, .Newlines k :: rest, h => by
    rw [List.cons_append, mergeMax, mergeMax]
    refine mergeMax_append_of_ne (max n k) rest ?_
    rw [List.dropWhile_cons_of_pos (by rfl)] at h
    exact h

theorem fold_append_break : ∀ (l : List Item) (out : String) (k : Nat),
    fold (l ++ [Item.Newlines k]) out = fold l out
  | [], out, k => by
    simp [fold, List.dropWhile_nil]
  | .Text s :: rest, out, k => by
    simp only [List.cons_append, fold]
    exact fold_append_break rest (out ++ s) k
  | .Newlines n :: rest, out, k => by
    simp only [List.cons_append, fold]
    by_cases hd : rest.dropWhile isBreakItem = []
    · have h2 : (rest ++ [Item.Newlines k]).dropWhile isBreakItem = [] := by
        rw [List.dropWhile_append]
        simp [hd, List.dropWhile_cons_of_pos, isBreakItem]
      rw [h2, hd, if_pos (Or.inr rfl), if_pos (Or.inr rfl)]
    · have h2 : (rest ++ [Item.Newlines k]).dropWhile isBreakItem
          = rest.dropWhile isBreakItem ++ [Item.Newlines k] := by
        rw [List.dropWhile_append]
        simp [hd]
      rw [h2, mergeMax_append_of_ne n rest hd]
      by_cases ho : out = ""
      · rw [if_pos (Or.inl ho), if_pos (Or.inl ho)]
        exact fold_append_break (rest.dropWhile isBreakItem) out k
      · rw [if_neg (by simp [ho]), if_neg (by simp [ho, hd])]
        exact fold_append_break (rest.dropWhile isBreakItem)
          (out ++ nlRepeat (mergeMax n rest)) k
termination_by l _ _ => l.length
decreasing_by
all_goals simp only [List.length_cons]
· exact Nat.lt_succ_self _
· exact Nat.lt_succ_of_le (List.dropWhile_sublist isBreakItem).length_le
· exact Nat.lt_succ_of_le (List.dropWhile_sublist isBreakItem).length_le

theorem fold_dropWhile_empty (l : List Item) :
    fold (l.dropWhile isBreakItem) "" = fold l "" := by
  cases l with
  | nil => rfl
  | cons i rest =>
    cases i with
    | Text s => rw [List.dropWhile_cons_of_neg (by simp [isBreakItem])]
    | Newlines n =>
      rw [List.dropWhile_cons_of_pos (by rfl)]
      conv_rhs => rw [fold]
      rw [if_pos (Or.inl rfl)]

theorem fold_cons_break_empty (n : Nat) (l : List Item) :
    fold (Item.Newlines n :: l) "" = fold l "" := by
  rw [fold, if_pos (Or.inl rfl)]
  exact fold_dropWhile_empty l

theorem classify_block_enter_exit {name : String}
    (attrs : List (String × String)) (h : is_block_element name = true) :
    ∃ k, classify (.enter (.element name attrs)) = some (.Newlines k)
      ∧ classify (.exit (.element name attrs)) = some (.Newlines k) := by
  by_cases hbr : name = "br"
  · rw [hbr] at h
    exact absurd h (by decide)
  · by_cases hp : name = "p"
    · subst hp
      exact ⟨2, rfl, rfl⟩
    · exact ⟨1, by simp [classify, hbr, hp, h], by simp [classify, hp, h]⟩

theorem classify_enter_text_visible {s : String} (h : wsOnly s = false) :
    classify (.enter (.text s)) = some (.Text s) := by
  show (if trimChars s.data ≠ [] then some (Item.Text s) else none)
      = some (Item.Text s)
  rw [if_pos]
  intro hc
  have hall := (trimChars_eq_nil_iff s.data).mp hc
  simp only [wsOnly] at h
  rw [hall] at h
  exact Bool.true_eq_false.mp h

/-- C5: wrapping content in exactly one block-level element adds no leading
or trailing newlines — extraction through a single block-level wrapper is
the same as extraction of the bare content (here placed under the neutral
document root, which emits no items) — and in particular a `div` around a
single non-whitespace text node extracts to exactly that text. -/
theorem c5_block_wrapper_adds_no_newlines :
    (∀ (name : String) (attrs : List (String × String)) (cs : List HtmlTree),
        is_block_element name = true →
        html_to_plain (.node (.element name attrs) cs)
          = html_to_plain (.node .document cs))
      ∧ ∀ X : String, wsOnly X = false →
          html_to_plain (.node (.element "div" []) [.node (.text X) []]) = X := by
  constructor
  · intro name attrs cs h
    obtain ⟨k, he, hx⟩ := classify_block_enter_exit attrs h
    show fold (itemsOf _) "" = fold (itemsOf _) ""
    rw [itemsOf_node, itemsOf_node, he, hx,
      show classify (.enter DomNode.document) = none from rfl,
      show classify (.exit DomNode.document) = none from rfl]
    simp only [Option.toList_some, Option.toList_none, List.nil_append,
      List.append_nil, List.singleton_append]
    rw [fold_cons_break_empty, fold_append_break]
  · intro X hX
    show fold (itemsOf _) "" = X
    rw [itemsOf_node, itemsOfL_cons, itemsOf_node, itemsOfL_nil,
      classify_enter_text_visible hX,
      show classify (.enter (.element "div" [])) = some (Item.Newlines 1) from rfl,
      show classify (.exit (.element "div" [])) = some (Item.Newlines 1) from rfl,
      show classify (.exit (.text X)) = none from rfl]
    simp only [Option.toList_some, Option.toList_none, List.nil_append,
      List.append_nil, List.singleton_append]
    rw [fold_cons_break_empty]
    rw [show ([Item.Text X, Item.Newlines 1] : List Item)
        = [Item.Text X] ++ [Item.Newlines 1] from rfl, fold_append_break]
    rw [fold, fold, String.empty_append]

/-- Witness for C5 at concrete inputs: a `div` wrapper around a paragraph
is invisible, and `div` around the text `"X"` extracts to `"X"`. -/
theorem c5_witness :
    (is_block_element "div" = true
      ∧ html_to_plain (.node (.element "div" []) [pNode "X"])
          = html_to_plain (.node .document [pNode "X"]))
      ∧ (wsOnly "X" = false
        ∧ html_to_plain (.node (.element "div" []) [.node (.text "X") []]) = "X") :=
  ⟨⟨by decide, c5_block_wrapper_adds_no_newlines.1 "div" [] [pNode "X"] (by decide)⟩,
    ⟨by decide, c5_block_wrapper_adds_no_newlines.2 "X" (by decide)⟩⟩

theorem nlRepeat_two : nlRepeat 2 = "\n\n" := rfl

theorem append_ne_empty_left {a : String} (ha : a ≠ "") (b : String) :
    a ++ b ≠ "" := by
  intro hc
  rw [str_eq_empty_iff, String.data_append, List.append_eq_nil] at hc
  exact ha ((str_eq_empty_iff a).mpr hc.1)

theorem append_ne_empty_right (a : String) {b : String} (hb : b ≠ "") :
    a ++ b ≠ "" := by
  intro hc
  rw [str_eq_empty_iff, String.data_append, List.append_eq_nil] at hc
  exact hb ((str_eq_empty_iff b).mpr hc.2)

theorem itemsOf_htmlFrag (cs : List HtmlTree) :
    itemsOf (htmlFrag cs) = itemsOfL cs := by
  rw [htmlFrag, itemsOf_node,
    show classify (.enter (.element "html" [])) = none from rfl,
    show classify (.exit (.element "html" [])) = none from rfl]
  simp

theorem itemsOf_pNode {s : String} (h : wsOnly s = false) :
    itemsOf (pNode s) = [Item.Newlines 2, Item.Text s, Item.Newlines 2] := by
  simp [pNode, itemsOf_node, itemsOfL_cons, itemsOfL_nil,
    classify_enter_text_visible h,
    show classify (.enter (.element "p" [])) = some (Item.Newlines 2) from rfl,
    show classify (.exit (.element "p" [])) = some (Item.Newlines 2) from rfl,
    show ∀ t : String, classify (.exit (.text t)) = none from fun t => rfl]

/-- C4: sibling paragraphs are joined by exactly two newlines and get no
leading or trailing newlines: two siblings with non-whitespace texts A and
B extract to A ++ two newlines ++ B, and three siblings to
A ++ two newlines ++ B ++ two newlines ++ C. -/
theorem c4_sibling_paragraphs_double_newline (A B C : String)
    (hA : wsOnly A = false) (hB : wsOnly B = false) (hC : wsOnly C = false) :
    html_to_plain (htmlFrag [pNode A, pNode B]) = A ++ "\n\n" ++ B
      ∧ html_to_plain (htmlFrag [pNode A, pNode B, pNode C])
          = A ++ "\n\n" ++ B ++ "\n\n" ++ C := by
  have hA' : A ≠ "" := ne_empty_of_not_wsOnly hA
  have hAB' : A ++ ("\n\n" ++ B) ≠ "" :=
    append_ne_empty_right A (append_ne_empty_left (by decide) B)
  constructor
  · show fold (itemsOf _) "" = _
    rw [itemsOf_htmlFrag, itemsOfL_cons, itemsOfL_cons, itemsOfL_nil,
      itemsOf_pNode hA, itemsOf_pNode hB]
    simp only [List.append_nil, List.cons_append, List.nil_append]
    rw [fold_cons_break_empty]
    simp [fold, List.dropWhile_cons, List.dropWhile_nil, isBreakItem,
      mergeMax, nlRepeat_two, hA', hAB', String.append_assoc]
  · show fold (itemsOf _) "" = _
    rw [itemsOf_htmlFrag, itemsOfL_cons, itemsOfL_cons, itemsOfL_cons,
      itemsOfL_nil, itemsOf_pNode hA, itemsOf_pNode hB, itemsOf_pNode hC]
    simp only [List.append_nil, List.cons_append, List.nil_append]
    rw [fold_cons_break_empty]
    simp [fold, List.dropWhile_cons, List.dropWhile_nil, isBreakItem,
      mergeMax, nlRepeat_two, hA', hAB', String.append_assoc]

/-- Witness for C4 at the concrete texts A, B and C. -/
theorem c4_witness :
    (wsOnly "A" = false ∧ wsOnly "B" = false ∧ wsOnly "C" = false)
      ∧ html_to_plain (htmlFrag [pNode "A", pNode "B"]) = "A" ++ "\n\n" ++ "B"
      ∧ html_to_plain (htmlFrag [pNode "A", pNode "B", pNode "C"])
          = "A" ++ "\n\n" ++ "B" ++ "\n\n" ++ "C" :=
  ⟨⟨by decide, by decide, by decide⟩,
    (c4_sibling_paragraphs_double_newline "A" "B" "C" (by decide) (by decide)
      (by decide)).1,
    (c4_sibling_paragraphs_double_newline "A" "B" "C" (by decide) (by decide)
      (by decide)).2⟩

/-- C6: nested block-level elements with no intervening text contribute no
newlines at all — the breaks emitted by the nested opens and closes merge
into boundary groups and are dropped, so the extraction is exactly the
inner text. -/
theorem c6_nested_blocks_collapse (T : String) (hT : wsOnly T = false) :
    html_to_plain (htmlFrag [.node (.element "header" [])
      [.node (.element "div" []) [.node (.element "h1" [])
        [.node (.text T) []]]]]) = T := by
  show fold (itemsOf _) "" = T
  rw [itemsOf_htmlFrag]
  simp only [itemsOf_node, itemsOfL_cons, itemsOfL_nil,
    classify_enter_text_visible hT,
    show classify (.enter (.element "header" [])) = some (Item.Newlines 1) from rfl,
    show classify (.exit (.element "header" [])) = some (Item.Newlines 1) from rfl,
    show classify (.enter (.element "div" [])) = some (Item.Newlines 1) from rfl,
    show classify (.exit (.element "div" [])) = some (Item.Newlines 1) from rfl,
    show classify (.enter (.element "h1" [])) = some (Item.Newlines 1) from rfl,
    show classify (.exit (.element "h1" [])) = some (Item.Newlines 1) from rfl,
    show ∀ t : String, classify (.exit (.text t)) = none from fun t => rfl,
    Option.toList_some, Option.toList_none, List.nil_append, List.append_nil,
    List.cons_append, List.singleton_append]
  rw [fold_cons_break_empty]
  simp [fold, List.dropWhile_cons, List.dropWhile_nil, isBreakItem]

/-- Witness for C6 at the concrete text T. -/
theorem c6_witness :
    wsOnly "T" = false
      ∧ html_to_plain (htmlFrag [.node (.element "header" [])
          [.node (.element "div" []) [.node (.element "h1" [])
            [.node (.text "T") []]]]]) = "T" :=
  ⟨by decide, c6_nested_blocks_collapse "T" (by decide)⟩

theorem classify_enter_element_break {name : String}
    {attrs : List (String × String)} {i : Item}
    (h : classify (.enter (.element name attrs)) = some i) :
    ∃ n, i = .Newlines n ∧ n ≤ 2 := by
  simp only [classify] at h
  split at h
  · obtain rfl := Option.some.inj h
    exact ⟨1, rfl, by omega⟩
  · split at h
    · obtain rfl := Option.some.inj h
      exact ⟨2, rfl, by omega⟩
    · split at h
      · obtain rfl := Option.some.inj h
        exact ⟨1, rfl, by omega⟩
      · exact absurd h (by simp)

theorem classify_exit_break {v : DomNode} {i : Item}
    (h : classify (.exit v) = some i) : ∃ n, i = .Newlines n ∧ n ≤ 2 := by
  cases v with
  | element name attrs =>
    simp only [classify] at h
    split at h
    · obtain rfl := Option.some.inj h
      exact ⟨2, rfl, by omega⟩
    · split at h
      · obtain rfl := Option.some.inj h
        exact ⟨1, rfl, by omega⟩
      · exact absurd h (by simp)
  | document => exact absurd h (by simp [classify])
  | text t => exact absurd h (by simp [classify])
  | comment c => exact absurd h (by simp [classify])
  | other => exact absurd h (by simp [classify])

theorem classify_enter_text_ws {s : String} (h : wsOnly s = true) :
    classify (.enter (.text s)) = none := by
  show (if trimChars s.data ≠ [] then some (Item.Text s) else none) = none
  rw [if_neg]
  intro hc
  exact hc ((trimChars_eq_nil_iff s.data).mpr h)

theorem classify_enter_break_of_not_visible {v : DomNode}
    (hv : nodeVisibleText v = false) {i : Item}
    (h : classify (.enter v) = some i) : isBreakItem i = true := by
  cases v with
  | text s =>
    cases hws : wsOnly s with
    | true => rw [classify_enter_text_ws hws] at h; exact absurd h (by simp)
    | false =>
      rw [nodeVisibleText, hws] at hv
      exact absurd hv (by decide)
  | element name attrs =>
    obtain ⟨n, rfl, -⟩ := classify_enter_element_break h
    rfl
  | document => exact absurd h (by simp [classify])
  | comment c => exact absurd h (by simp [classify])
  | other => exact absurd h (by simp [classify])

mutual

theorem breaks_only_of_no_visible : ∀ t : HtmlTree, hasVisibleText t = false →
    ∀ i ∈ itemsOf t, isBreakItem i = true
  | .node v cs, h, i, hi => by
    rw [hasVisibleText, Bool.or_eq_false_iff] at h
    rw [itemsOf_node] at hi
    rcases List.mem_append.mp hi with h1 | h23
    · exact classify_enter_break_of_not_visible h.1 (by simpa using h1)
    · rcases List.mem_append.mp h23 with h2 | h3
      · exact breaks_onlyL_of_no_visible cs h.2 i h2
      · obtain ⟨n, rfl, -⟩ := classify_exit_break (v := v) (by simpa using h3)
        rfl

theorem breaks_onlyL_of_no_visible : ∀ ts : List HtmlTree,
    hasVisibleTextL ts = false → ∀ i ∈ itemsOfL ts, isBreakItem i = true
  | [], _, i, hi => by simp [itemsOfL_nil] at hi
  | t :: ts, h, i, hi => by
    rw [hasVisibleTextL, Bool.or_eq_false_iff] at h
    rw [itemsOfL_cons] at hi
    rcases List.mem_append.mp hi with h1 | h2
    · exact breaks_only_of_no_visible t h.1 i h1
    · exact breaks_onlyL_of_no_visible ts h.2 i h2

end

theorem fold_all_breaks : ∀ l : List Item,
    (∀ i ∈ l, isBreakItem i = true) → fold l "" = ""
  | [], _ => by simp [fold]
  | .Text s :: rest, h =>
    absurd (h (Item.Text s) (List.mem_cons_self _ _)) (by simp [isBreakItem])
  | .Newlines n :: rest, h => by
    have hd : rest.dropWhile isBreakItem = [] :=
      List.dropWhile_eq_nil_iff.mpr fun x hx => by
        simpa using h x (by simp [hx])
    simp [fold, hd]

/-- C9: a tree whose subtree holds no text node with non-whitespace
content extracts to the empty string — all emitted items are breaks, they
merge into one boundary group, and boundary groups are dropped. -/
theorem c9_no_visible_text_extracts_empty (t : HtmlTree)
    (h : hasVisibleText t = false) : html_to_plain t = "" :=
  fold_all_breaks (itemsOf t) (breaks_only_of_no_visible t h)

/-- Witness for C9: a div holding a comment and a whitespace-only text
node extracts to the empty string. -/
theorem c9_witness :
    hasVisibleText (.node (.element "div" [])
        [.node (.comment "c") [], .node (.text " ") []]) = false
      ∧ html_to_plain (.node (.element "div" [])
          [.node (.comment "c") [], .node (.text " ") []]) = "" := by
  have hws : wsOnly " " = true := by decide
  have h : hasVisibleText (.node (.element "div" [])
      [.node (.comment "c") [], .node (.text " ") []]) = false := by
    simp [hasVisibleText, hasVisibleTextL, nodeVisibleText, hws]
  exact ⟨h, c9_no_visible_text_extracts_empty _ h⟩

theorem not_mem_of_contains_false {l : List Char} {c : Char}
    (h : l.contains c = false) : c ∉ l := by
  intro hc
  have h' : l.elem c = false := h
  rw [List.elem_iff.mpr hc] at h'
  exact absurd h' (by decide)

theorem dropWhile_head_not {p : Item → Bool} : ∀ {l : List Item} {a : Item}
    {r : List Item}, l.dropWhile p = a :: r → p a = false
  | [], a, r, h => by simp at h
  | x :: xs, a, r, h => by
    by_cases hx : p x = true
    · rw [List.dropWhile_cons_of_pos hx] at h
      exact dropWhile_head_not h
    · rw [List.dropWhile_cons_of_neg (by simpa using hx)] at h
      cases h
      simpa using hx

theorem noTripleL_nil : NoTripleL [] := by
  intro i h
  simp at h

theorem pos_lt_of_nlFree {a b : List Char} (hb : ∀ c ∈ b, c ≠ '\n') {j : Nat}
    (hj : (a ++ b)[j]? = some '\n') : j < a.length := by
  by_contra hge
  have hge' := Nat.le_of_not_lt hge
  rw [List.getElem?_append_right hge'] at hj
  exact hb _ (List.getElem?_mem hj) rfl

theorem noTripleL_append_nlFree {a b : List Char} (ha : NoTripleL a)
    (hb : ∀ c ∈ b, c ≠ '\n') : NoTripleL (a ++ b) := by
  intro i h
  obtain ⟨h1, h2, h3⟩ := h
  have l1 := pos_lt_of_nlFree hb h1
  have l2 := pos_lt_of_nlFree hb h2
  have l3 := pos_lt_of_nlFree hb h3
  refine ha i ⟨?_, ?_, ?_⟩
  · rw [List.getElem?_append_left l1] at h1; exact h1
  · rw [List.getElem?_append_left l2] at h2; exact h2
  · rw [List.getElem?_append_left l3] at h3; exact h3

theorem noTripleL_append_breaks {a b : List Char} {m : Nat} (ha : NoTripleL a)
    (hlast : a.getLast? ≠ some '\n') (hm : m ≤ 2)
    (hb : ∀ c ∈ b, c ≠ '\n') :
    NoTripleL (a ++ (List.replicate m '\n' ++ b)) := by
  intro i h
  obtain ⟨h1, h2, h3⟩ := h
  have key : ∀ j, (a ++ (List.replicate m '\n' ++ b))[j]? = some '\n' →
      j < a.length ∨ (a.length ≤ j ∧ j - a.length < m) := by
    intro j hj
    by_cases hja : j < a.length
    · exact Or.inl hja
    · have hge := Nat.le_of_not_lt hja
      refine Or.inr ⟨hge, ?_⟩
      by_cases hjm : j - a.length < m
      · exact hjm
      · exfalso
        rw [List.getElem?_append_right hge] at hj
        have hge2 : (List.replicate m '\n').length ≤ j - a.length := by
          simpa using Nat.le_of_not_lt hjm
        rw [List.getElem?_append_right hge2] at hj
        exact hb _ (List.getElem?_mem hj) rfl
  rcases key i h1 with hi | hi
  · rcases key (i + 2) h3 with hi3 | hi3
    · refine ha i ⟨?_, ?_, ?_⟩
      · rw [List.getElem?_append_left (by omega)] at h1; exact h1
      · rw [List.getElem?_append_left (by omega)] at h2; exact h2
      · rw [List.getElem?_append_left (by omega)] at h3; exact h3
    · have hlen : 1 ≤ a.length := by omega
      have hpos : a.length - 1 = i ∨ a.length - 1 = i + 1 := by omega
      have hchar : (a ++ (List.replicate m '\n' ++ b))[a.length - 1]?
          = some '\n' := by
        rcases hpos with hp | hp
        · rw [hp]; exact h1
        · rw [hp]; exact h2
      rw [List.getElem?_append_left (by omega)] at hchar
      rw [← List.getLast?_eq_getElem?] at hchar
      exact hlast hchar
  · rcases key (i + 2) h3 with hi3 | hi3
    · omega
    · omega

theorem mergeMax_le : ∀ (n : Nat) (l : List Item), n ≤ 2 →
    (∀ i ∈ l, goodItem i) → mergeMax n l ≤ 2
  | n, [], hn, _ => hn
  | n, .Text s :: rest, hn, _ => by
    simpa [mergeMax] using hn
  | n, .Newlines k :: rest, hn, hg => by
    rw [mergeMax]
    have hk : k ≤ 2 := hg (Item.Newlines k) (List.mem_cons_self _ _)
    exact mergeMax_le (max n k) rest (Nat.max_le.mpr ⟨hn, hk⟩)
      (fun i hi => hg i (List.mem_cons_of_mem _ hi))

theorem classify_enter_good {v : DomNode} (hv : nodeNlFree v = true) {i : Item}
    (h : classify (.enter v) = some i) : goodItem i := by
  cases v with
  | text s =>
    by_cases ht : trimChars s.data ≠ []
    · have hcl : classify (.enter (.text s)) = some (.Text s) := by
        show (if trimChars s.data ≠ [] then some (Item.Text s) else none) = _
        rw [if_pos ht]
      rw [hcl] at h
      obtain rfl := Option.some.inj h
      have hcont : s.data.contains '\n' = false := by
        rw [nodeNlFree] at hv
        simpa using hv
      refine ⟨?_, hcont⟩
      intro hc
      rw [hc] at ht
      exact ht rfl
    · have hcl : classify (.enter (.text s)) = none := by
        show (if trimChars s.data ≠ [] then some (Item.Text s) else none) = _
        rw [if_neg ht]
      rw [hcl] at h
      exact absurd h (by simp)
  | element name attrs =>
    obtain ⟨n, rfl, hn⟩ := classify_enter_element_break h
    exact hn
  | document => exact absurd h (by simp [classify])
  | comment c => exact absurd h (by simp [classify])
  | other => exact absurd h (by simp [classify])

theorem classify_exit_good {v : DomNode} {i : Item}
    (h : classify (.exit v) = some i) : goodItem i := by
  obtain ⟨n, rfl, hn⟩ := classify_exit_break h
  exact hn

mutual

theorem goodItems_of_nlFree : ∀ t : HtmlTree, textsNlFree t = true →
    ∀ i ∈ itemsOf t, goodItem i
  | .node v cs, h, i, hi => by
    rw [textsNlFree, Bool.and_eq_true] at h
    rw [itemsOf_node] at hi
    rcases List.mem_append.mp hi with h1 | h23
    · exact classify_enter_good h.1 (by simpa using h1)
    · rcases List.mem_append.mp h23 with h2 | h3
      · exact goodItemsL_of_nlFree cs h.2 i h2
      · exact classify_exit_good (v := v) (by simpa using h3)

theorem goodItemsL_of_nlFree : ∀ ts : List HtmlTree, textsNlFreeL ts = true →
    ∀ i ∈ itemsOfL ts, goodItem i
  | [], _, i, hi => by simp [itemsOfL_nil] at hi
  | t :: ts, h, i, hi => by
    rw [textsNlFreeL, Bool.and_eq_true] at h
    rw [itemsOfL_cons] at hi
    rcases List.mem_append.mp hi with h1 | h2
    · exact goodItems_of_nlFree t h.1 i h1
    · exact goodItemsL_of_nlFree ts h.2 i h2

end

theorem fold_noTriple : ∀ (l : List Item) (out : String),
    (∀ i ∈ l, goodItem i) → NoTripleL out.data →
    out.data.getLast? ≠ some '\n' → NoTripleL (fold l out).data
  | [], out, _, hout, _ => by simpa [fold] using hout
  | .Text s :: rest, out, hg, hout, hlast => by
    obtain ⟨hne, hcont⟩ := hg (Item.Text s) (List.mem_cons_self _ _)
    have hmem : '\n' ∉ s.data := not_mem_of_contains_false hcont
    have hbfree : ∀ c ∈ s.data, c ≠ '\n' := fun c hc hcn => hmem (hcn ▸ hc)
    have hsd : s.data ≠ [] := fun hc => hne ((str_eq_empty_iff s).mpr hc)
    simp only [fold]
    refine fold_noTriple rest (out ++ s)
      (fun i hi => hg i (List.mem_cons_of_mem _ hi)) ?_ ?_
    · rw [String.data_append]
      exact noTripleL_append_nlFree hout hbfree
    · rw [String.data_append, List.getLast?_append]
      obtain ⟨c, hc⟩ : ∃ c, s.data.getLast? = some c := by
        cases hdd : s.data.getLast? with
        | none => exact absurd (List.getLast?_eq_none_iff.mp hdd) hsd
        | some c => exact ⟨c, rfl⟩
      rw [hc, Option.or_some]
      intro heq
      have hceq : c = '\n' := Option.some.inj heq
      exact hmem (hceq ▸ List.mem_of_getLast?_eq_some hc)
  | .Newlines n :: rest, out, hg, hout, hlast => by
    simp only [fold]
    by_cases hc : out = "" ∨ rest.dropWhile isBreakItem = []
    · rw [if_pos hc]
      refine fold_noTriple (rest.dropWhile isBreakItem) out ?_ hout hlast
      intro i hi
      exact hg i (List.mem_cons_of_mem _
        ((List.dropWhile_sublist isBreakItem).subset hi))
    · rw [if_neg hc]
      push_neg at hc
      obtain ⟨ho, hd⟩ := hc
      obtain ⟨j, r', hjr⟩ : ∃ j r', rest.dropWhile isBreakItem = j :: r' := by
        cases hdw : rest.dropWhile isBreakItem with
        | nil => exact absurd hdw hd
        | cons j r' => exact ⟨j, r', rfl⟩
      rw [hjr]
      cases j with
      | Newlines m =>
        exact absurd (dropWhile_head_not hjr) (by simp [isBreakItem])
      | Text s =>
        simp only [fold]
        have hsmem : Item.Text s ∈ rest :=
          (List.dropWhile_sublist isBreakItem).subset
            (by rw [hjr]; exact List.mem_cons_self _ _)
        obtain ⟨hne, hcont⟩ := hg (Item.Text s) (List.mem_cons_of_mem _ hsmem)
        have hmem : '\n' ∉ s.data := not_mem_of_contains_false hcont
        have hbfree : ∀ c ∈ s.data, c ≠ '\n' := fun c hcm hcn => hmem (hcn ▸ hcm)
        have hsd : s.data ≠ [] := fun hcc => hne ((str_eq_empty_iff s).mpr hcc)
        have hm2 : mergeMax n rest ≤ 2 :=
          mergeMax_le n rest (hg (Item.Newlines n) (List.mem_cons_self _ _))
            (fun i hi => hg i (List.mem_cons_of_mem _ hi))
        refine fold_noTriple r' (out ++ nlRepeat (mergeMax n rest) ++ s)
          ?_ ?_ ?_
        · intro i hi
          refine hg i (List.mem_cons_of_mem _ ?_)
          exact (List.dropWhile_sublist isBreakItem).subset
            (by rw [hjr]; exact List.mem_cons_of_mem _ hi)
        · rw [String.data_append, String.data_append, List.append_assoc]
          exact noTripleL_append_breaks hout hlast hm2 hbfree
        · rw [String.data_append, List.getLast?_append]
          obtain ⟨c, hcl⟩ : ∃ c, s.data.getLast? = some c := by
            cases hdd : s.data.getLast? with
            | none => exact absurd (List.getLast?_eq_none_iff.mp hdd) hsd
            | some c => exact ⟨c, rfl⟩
          rw [hcl, Option.or_some]
          intro heq
          have hceq : c = '\n' := Option.some.inj heq
          exact hmem (hceq ▸ List.mem_of_getLast?_eq_some hcl)
termination_by l _ _ _ _ => l.length
decreasing_by
· simp only [List.length_cons]
  omega
· simp only [List.length_cons]
  exact Nat.lt_succ_of_le (List.dropWhile_sublist isBreakItem).length_le
· simp only [List.length_cons]
  have h1 := congrArg List.length hjr
  have h2 := (List.dropWhile_sublist (l := rest) isBreakItem).length_le
  simp only [List.length_cons] at h1
  omega

/-- C10: if no text node of the tree contains a newline character then the
extracted string never shows three consecutive newlines — every break
carries a count of 1 or 2, merging takes the maximum, and every emitted
newline run is delimited by newline-free text. -/
theorem c10_no_triple_newline (t : HtmlTree) (h : textsNlFree t = true) :
    noTripleNewline (html_to_plain t) :=
  fold_noTriple (itemsOf t) "" (goodItems_of_nlFree t h) noTripleL_nil
    (by simp)

/-- Witness for C10: the two-paragraph fragment has newline-free text
nodes, so its extraction has no triple newline. -/
theorem c10_witness :
    textsNlFree (htmlFrag [pNode "A", pNode "B"]) = true
      ∧ noTripleNewline (html_to_plain (htmlFrag [pNode "A", pNode "B"])) := by
  have hA : ("A" : String).data.contains '\n' = false := by decide
  have hB : ("B" : String).data.contains '\n' = false := by decide
  have h : textsNlFree (htmlFrag [pNode "A", pNode "B"]) = true := by
    simp [textsNlFree, textsNlFreeL, htmlFrag, pNode, nodeNlFree, hA, hB]
  exact ⟨h, c10_no_triple_newline _ h⟩

end Sawzall
